import Mathlib

/-!
Verification of `main.py` (range→CIDR conversion and country/ASN row
aggregation).  The Python code is shallowly embedded: strings are Lean
`String`s, 32-bit addresses are `Nat`s below `2 ^ 32`, the CPython
`ipaddress` helpers used by the program (`ip_address` parsing,
`summarize_address_range`, `ip_network` keys) are translated function by
function, and the try/except structure of `ip_range_to_cidr` is made
explicit as an `Except` value whose error constructor records which
handler (warning print) fires.  All recursion is structural (via explicit
fuel where the Python loop is unbounded) so every definition evaluates on
concrete inputs.
-/

/-- Is `c` an ASCII decimal digit?  Models CPython's `str.isdigit` check on
the ASCII octet/prefix strings handled here. -/
def isDecDigit (c : Char) : Bool := '0' ≤ c && c ≤ '9'

/-- Numeric value of a decimal digit character. -/
def digitVal (c : Char) : Nat := c.toNat - '0'.toNat

/-- The decimal digit character for `d < 10`. -/
def digitChar (d : Nat) : Char := Char.ofNat (48 + d)

/-- Value of a decimal digit string (most significant first), as computed by
CPython's `int(s)` once `s` is known to be all digits. -/
def decValue (l : List Char) : Nat := l.foldl (fun a c => a * 10 + digitVal c) 0

/-- Python's `str.split(sep)` for a single-character separator, on character
lists.  Always returns at least one (possibly empty) part. -/
def splitSep (sep : Char) : List Char → List (List Char)
  | [] => [[]]
  | c :: cs =>
    if c = sep then [] :: splitSep sep cs
    else
      match splitSep sep cs with
      | [] => [[c]]
      | p :: ps => (c :: p) :: ps

/-- CPython `IPv4Address._parse_octet`: non-empty, all decimal digits, at
most 3 characters, no leading zero (except `"0"` itself), value at most
255. -/
def parse_octet (l : List Char) : Option Nat :=
  if l = [] then none
  else if !(l.all isDecDigit) then none
  else if l.length > 3 then none
  else if l.head? = some '0' && l ≠ ['0'] then none
  else
    let v := decValue l
    if v > 255 then none else some v

/-- CPython `IPv4Address._ip_int_from_string`: exactly four dot-separated
octets, assembled big-endian into a 32-bit integer. -/
def ipv4_int_from_chars (l : List Char) : Option Nat :=
  match (splitSep '.' l).mapM parse_octet with
  | some [a, b, c, d] => some (((a * 256 + b) * 256 + c) * 256 + d)
  | _ => none

/-- Parse a dotted-quad IPv4 address string to its 32-bit integer value. -/
def parseIPv4 (s : String) : Option Nat := ipv4_int_from_chars s.data

/-- Is `c` an ASCII hexadecimal digit (CPython's `_HEX_DIGITS`)? -/
def isHexDigit (c : Char) : Bool :=
  ('0' ≤ c && c ≤ '9') || ('a' ≤ c && c ≤ 'f') || ('A' ≤ c && c ≤ 'F')

/-- CPython `IPv6Address._parse_hextet` acceptance: 1–4 hex digits (the
empty string fails `int('', 16)`). -/
def hextet_ok (l : List Char) : Bool :=
  !l.isEmpty && l.all isHexDigit && l.length ≤ 4

/-- Hex digit character (lower case), as produced by CPython's `'%x'`. -/
def hexDigitChar (d : Nat) : Char :=
  if d < 10 then Char.ofNat (48 + d) else Char.ofNat (87 + d)

/-- Lower-case hex rendering of `n < 65536` (CPython `'%x' % n`), used when
an embedded IPv4 suffix of an IPv6 address is rewritten into two hextets. -/
def hexChars (n : Nat) : List Char :=
  if n < 16 then [hexDigitChar n]
  else if n < 256 then [hexDigitChar (n / 16), hexDigitChar (n % 16)]
  else if n < 4096 then
    [hexDigitChar (n / 256), hexDigitChar (n / 16 % 16), hexDigitChar (n % 16)]
  else
    [hexDigitChar (n / 4096), hexDigitChar (n / 256 % 16),
      hexDigitChar (n / 16 % 16), hexDigitChar (n % 16)]

/-- CPython `IPv6Address._ip_int_from_string`, step 1: if the last
colon-separated part contains a dot, parse it as IPv4 and replace it by the
two hextets of its value; fails when that trailing part is not a valid
IPv4 address. -/
def ipv6_expand_v4 (parts : List (List Char)) : Option (List (List Char)) :=
  match parts.getLast? with
  | none => none
  | some lastp =>
    if lastp.contains '.' then
      match ipv4_int_from_chars lastp with
      | some v => some (parts.dropLast ++ [hexChars (v / 65536), hexChars (v % 65536)])
      | none => none
    else some parts

/-- CPython `IPv6Address._ip_int_from_string`, step 2: the `'::'` analysis
over the list of colon-separated parts (after the IPv4-suffix expansion).
Only validity is modelled — `main.py` never uses the integer value of an
IPv6 address, only the fact that the input parsed as IPv6 rather than
IPv4. -/
def ipv6_parts_ok (parts : List (List Char)) : Bool :=
  if parts.length > 9 then false
  else
    let inner := (parts.drop 1).dropLast
    let emptyCount := inner.countP (·.isEmpty)
    if emptyCount > 1 then false
    else if emptyCount = 1 then
      let skip_index := 1 + inner.findIdx (·.isEmpty)
      let parts_hi := skip_index
      let parts_lo := parts.length - skip_index - 1
      let headEmpty := parts.head? = some []
      let lastEmpty := parts.getLast? = some []
      let parts_hi := if headEmpty then parts_hi - 1 else parts_hi
      let parts_lo := if lastEmpty then parts_lo - 1 else parts_lo
      if headEmpty && decide (parts_hi ≠ 0) then false
      else if lastEmpty && decide (parts_lo ≠ 0) then false
      else if 8 - (parts_hi + parts_lo) < 1 then false
      else
        (parts.take parts_hi).all hextet_ok &&
          (parts.drop (parts.length - parts_lo)).all hextet_ok
    else
      if parts.length ≠ 8 then false
      else if parts.head? = some [] then false
      else if parts.getLast? = some [] then false
      else parts.all hextet_ok

/-- CPython IPv6 textual-address acceptance (without the `%scope` suffix):
non-empty, at least three colon-separated parts, optional trailing IPv4
suffix, at most one `'::'`, correct hextet count and syntax. -/
def ipv6_addr_ok (l : List Char) : Bool :=
  if l.isEmpty then false
  else
    let parts := splitSep ':' l
    if parts.length < 3 then false
    else
      match ipv6_expand_v4 parts with
      | none => false
      | some parts => ipv6_parts_ok parts

/-- CPython `IPv6Address.__init__` acceptance: split off an optional
`%scope` (which must be non-empty and contain no further `%`), then check
the address part. -/
def isValidIPv6 (s : String) : Bool :=
  match splitSep '%' s.data with
  | [addr] => ipv6_addr_ok addr
  | [addr, scope] => (!scope.isEmpty && !scope.contains '%') && ipv6_addr_ok addr
  | _ => false

/-- Result of CPython `ipaddress.ip_address` as used by `main.py`: the code
only ever inspects `.version` and (for IPv4) the integer value, so an IPv6
result carries no payload. -/
inductive PyAddr where
  | v4 (ip : Nat)
  | v6
deriving DecidableEq

/-- CPython `ipaddress.ip_address(s)`: try IPv4, then IPv6, else raise
`ValueError` (here: `none`). -/
def ip_address (s : String) : Option PyAddr :=
  match parseIPv4 s with
  | some n => some (.v4 n)
  | none => if isValidIPv6 s then some .v6 else none

/-- Fuel-driven trailing-zero count; `fuel ≥ n` suffices. -/
def trailingZerosAux : Nat → Nat → Nat
  | 0, _ => 0
  | fuel + 1, n =>
    if n = 0 then 0
    else if n % 2 = 1 then 0
    else trailingZerosAux fuel (n / 2) + 1

/-- Number of trailing zero bits of `n` (the value of CPython's
`(~number & (number - 1)).bit_length()` for `number > 0`). -/
def trailingZeros (n : Nat) : Nat := trailingZerosAux n n

/-- CPython `ipaddress._count_righthand_zero_bits`. -/
def count_righthand_zero_bits (number bits : Nat) : Nat :=
  if number = 0 then bits else min bits (trailingZeros number)

/-- Fuel-driven bit length; `fuel ≥ n` suffices. -/
def bitLengthAux : Nat → Nat → Nat
  | 0, _ => 0
  | fuel + 1, n => if n = 0 then 0 else bitLengthAux fuel (n / 2) + 1

/-- Python `int.bit_length`. -/
def bit_length (n : Nat) : Nat := bitLengthAux n n

/-- The greedy block-size exponent chosen by
`ipaddress._summarize_address_range` at position `first` of the interval
`[first, last]`. -/
def nbitsOf (first last : Nat) : Nat :=
  min (count_righthand_zero_bits first 32) (bit_length (last - first + 1) - 1)

/-- Fuel-driven loop of CPython `ipaddress._summarize_address_range` for
IPv4 (`ip_bits = 32`, `_ALL_ONES = 2 ^ 32 - 1`); each emitted pair is
`(network_int, prefixlen)`.  One unit of fuel per loop iteration; the
start advances by at least one per iteration, so `last + 1 - first` units
suffice. -/
def summarizeAux : Nat → Nat → Nat → List (Nat × Nat)
  | 0, _, _ => []
  | fuel + 1, first, last =>
    if first ≤ last then
      let nbits := nbitsOf first last
      (first, 32 - nbits) ::
        (if first + 2 ^ nbits - 1 = 2 ^ 32 - 1 then []
         else summarizeAux fuel (first + 2 ^ nbits) last)
    else []

/-- CPython `ipaddress.summarize_address_range` on IPv4 integer endpoints,
returning `(network_int, prefixlen)` pairs. -/
def summarize_address_range (first last : Nat) : List (Nat × Nat) :=
  summarizeAux (last + 1 - first) first last

/-- Fuel-driven decimal rendering; `fuel ≥ n + 1` suffices. -/
def decCharsAux : Nat → Nat → List Char
  | 0, _ => []
  | fuel + 1, n =>
    if n < 10 then [digitChar n]
    else decCharsAux fuel (n / 10) ++ [digitChar (n % 10)]

/-- Python `str(n)` for a natural number. -/
def decChars (n : Nat) : List Char := decCharsAux (n + 1) n

/-- Dotted-quad rendering of a 32-bit integer
(CPython `IPv4Address._string_from_ip_int`). -/
def ipv4Chars (n : Nat) : List Char :=
  decChars (n / 2 ^ 24 % 256) ++ '.' ::
    (decChars (n / 2 ^ 16 % 256) ++ '.' ::
      (decChars (n / 2 ^ 8 % 256) ++ '.' :: decChars (n % 256)))

/-- `str(network)` for an IPv4 network given as `(network_int, prefixlen)`:
the canonical `a.b.c.d/len` form. -/
def cidrString (b : Nat × Nat) : String :=
  String.mk (ipv4Chars b.1 ++ '/' :: decChars b.2)

/-- The distinct failure exits of `ip_range_to_cidr` in `main.py`:
`malformed` is the `except ValueError` handler (unparseable address),
`unsupportedFamily` the `version != 4` early return (lines 32–34),
`rangeOrder` the `start_int > end_int` warning return (lines 39–42). -/
inductive ConvError where
  | malformed
  | unsupportedFamily
  | rangeOrder
deriving DecidableEq

/-- `ip_range_to_cidr` of `main.py` with its failure paths kept apart: the
code parses both addresses (a parse failure raises `ValueError`, caught by
the handler that logs and returns `[]`), silently returns `[]` when either
address is not IPv4, warns and returns `[]` when `start > end`, and
otherwise returns the summarized CIDR strings. -/
def ip_range_to_cidrE (start_ip_str end_ip_str : String) :
    Except ConvError (List String) :=
  match ip_address start_ip_str, ip_address end_ip_str with
  | some (.v4 s), some (.v4 e) =>
    if s > e then .error .rangeOrder
    else .ok ((summarize_address_range s e).map cidrString)
  | some _, some _ => .error .unsupportedFamily
  | _, _ => .error .malformed

/-- `ip_range_to_cidr` of `main.py` as its caller sees it: every failure
path returns the empty list. -/
def ip_range_to_cidr (start_ip_str end_ip_str : String) : List String :=
  match ip_range_to_cidrE start_ip_str end_ip_str with
  | .ok l => l
  | .error _ => []

/-- The target ASN allow-list of `main.py` (`AS_NUMBERS`). -/
def AS_NUMBERS : List String := ["AS4134", "AS4808", "AS4837", "AS9808", "AS4812"]

/-- The target country code of `main.py` (`COUNTRY_CODE`). -/
def COUNTRY_CODE : String := "CN"

/-- Column index of `start_ip` after the header lookup of
`get_ips_from_ipinfo_csv` (the I/O layer resolves the names to fixed
indices; rows are modelled already laid out in this normalized order). -/
def start_ip_idx : Nat := 0

/-- Column index of `end_ip`. -/
def end_ip_idx : Nat := 1

/-- Column index of `country`. -/
def country_idx : Nat := 2

/-- Column index of `asn`. -/
def asn_idx : Nat := 3

/-- `max(required_indices)` in `get_ips_from_ipinfo_csv`. -/
def max_required_index : Nat :=
  max (max start_ip_idx end_ip_idx) (max country_idx asn_idx)

/-- The row filter of `get_ips_from_ipinfo_csv` (line 103):
`country == target_country and asn in target_asns`.  Note `target_asns` is
a Python list, so `in` is exact element membership. -/
def rowMatchesFilter (target_country : String) (target_asns : List String)
    (row : List String) : Bool :=
  row.getD country_idx "" == target_country &&
    target_asns.contains (row.getD asn_idx "")

/-- The mutable state of the row loop of `get_ips_from_ipinfo_csv`: the
dedup set `cidrs` and the two counters the function maintains. -/
structure AggState where
  cidrs : Finset String
  processed_rows : Nat
  matched_rows : Nat
deriving DecidableEq

/-- One iteration of the row loop of `get_ips_from_ipinfo_csv`:
count the row, skip it if it is too short for the required indices,
test the country/ASN filter, and on a match count it and add its
converted CIDR blocks to the set. -/
def processRow (target_country : String) (target_asns : List String)
    (st : AggState) (row : List String) : AggState :=
  let st := { st with processed_rows := st.processed_rows + 1 }
  if row.length ≤ max_required_index then st
  else if rowMatchesFilter target_country target_asns row then
    { st with
      matched_rows := st.matched_rows + 1,
      cidrs := st.cidrs ∪
        (ip_range_to_cidr (row.getD start_ip_idx "") (row.getD end_ip_idx "")).toFinset }
  else st

/-- The full row loop of `get_ips_from_ipinfo_csv` over the data rows. -/
def aggregate (rows : List (List String)) (target_country : String)
    (target_asns : List String) : AggState :=
  rows.foldl (processRow target_country target_asns) ⟨∅, 0, 0⟩

/-- CPython `_prefix_from_prefix_string` acceptance: all-decimal-digit
string whose value is at most 32. -/
def parse_prefixlen (l : List Char) : Option Nat :=
  if l = [] then none
  else if !(l.all isDecDigit) then none
  else
    let v := decValue l
    if v ≤ 32 then some v else none

/-- The key CPython's `ipaddress.ip_network` gives the sort at line 148 of
`main.py`, for the prefix-length network form — the only form the program
ever feeds it: `(network_int, prefixlen)`, with the strict host-bits
check.  `IPv4Network` objects compare by `(network_address, netmask)`,
which on IPv4 is exactly this pair ordered lexicographically. -/
def parse_ipv4_network (s : String) : Option (Nat × Nat) :=
  match splitSep '/' s.data with
  | [a] => (ipv4_int_from_chars a).map (fun n => (n, 32))
  | [a, p] =>
    match ipv4_int_from_chars a, parse_prefixlen p with
    | some n, some pl => if n % 2 ^ (32 - pl) = 0 then some (n, pl) else none
    | _, _ => none
  | _ => none

/-- Sort key of a CIDR string: its `(network_int, prefixlen)` pair.
Unparseable strings (which never occur in the program's sets) are given a
dummy key. -/
def netKey (s : String) : Nat × Nat :=
  match parse_ipv4_network s with
  | some k => k
  | none => (0, 0)

/-- Strict lexicographic comparison of the `(network_int, prefixlen)` keys:
the order in which CPython compares distinct `IPv4Network` values. -/
def netKeyLt (a b : String) : Prop :=
  (netKey a).1 < (netKey b).1 ∨
    ((netKey a).1 = (netKey b).1 ∧ (netKey a).2 < (netKey b).2)

/-- Total order used to model `sorted(list(cidrs), key=ipaddress.ip_network)`:
compare network keys, breaking (never-occurring) key ties by the string
itself so that the relation is antisymmetric on all strings. -/
def cidrLE (a b : String) : Prop :=
  netKeyLt a b ∨ (netKey a = netKey b ∧ a ≤ b)

instance : DecidableRel netKeyLt := fun _ _ => by
  unfold netKeyLt; infer_instance

instance : DecidableRel cidrLE := fun _ _ => by
  unfold cidrLE netKeyLt; infer_instance

theorem netKeyLt_trans {a b c : String} (h1 : netKeyLt a b) (h2 : netKeyLt b c) :
    netKeyLt a c := by
  unfold netKeyLt at *; omega

theorem netKeyLt_asymm {a b : String} (h1 : netKeyLt a b) (h2 : netKeyLt b a) :
    False := by
  unfold netKeyLt at *; omega

theorem netKeyLt_of_eq_lt {a b c : String} (h1 : netKey a = netKey b)
    (h2 : netKeyLt b c) : netKeyLt a c := by
  unfold netKeyLt at *; rw [h1]; exact h2

theorem netKeyLt_of_lt_eq {a b c : String} (h1 : netKeyLt a b)
    (h2 : netKey b = netKey c) : netKeyLt a c := by
  unfold netKeyLt at *; rw [← h2]; exact h1

theorem netKey_eq_of_not_lt {a b : String} (h1 : ¬netKeyLt a b)
    (h2 : ¬netKeyLt b a) : netKey a = netKey b := by
  have h3 : (netKey a).1 = (netKey b).1 ∧ (netKey a).2 = (netKey b).2 := by
    unfold netKeyLt at h1 h2; omega
  exact Prod.ext h3.1 h3.2

instance : IsTrans String cidrLE := by
  constructor
  intro a b c hab hbc
  rcases hab with hab | ⟨hab, hab'⟩ <;> rcases hbc with hbc | ⟨hbc, hbc'⟩
  · exact Or.inl (netKeyLt_trans hab hbc)
  · exact Or.inl (netKeyLt_of_lt_eq hab hbc)
  · exact Or.inl (netKeyLt_of_eq_lt hab hbc)
  · exact Or.inr ⟨hab.trans hbc, le_trans hab' hbc'⟩

instance : IsAntisymm String cidrLE := by
  constructor
  intro a b hab hba
  rcases hab with hab | ⟨habk, hab'⟩ <;> rcases hba with hba | ⟨hbak, hba'⟩
  · exact (netKeyLt_asymm hab hba).elim
  · exact (netKeyLt_asymm (netKeyLt_of_lt_eq hab hbak) (netKeyLt_of_lt_eq hab hbak)).elim
  · exact (netKeyLt_asymm (netKeyLt_of_lt_eq hba habk) (netKeyLt_of_lt_eq hba habk)).elim
  · exact le_antisymm hab' hba'

instance : IsTotal String cidrLE := by
  constructor
  intro a b
  by_cases h1 : netKeyLt a b
  · exact Or.inl (Or.inl h1)
  by_cases h2 : netKeyLt b a
  · exact Or.inr (Or.inl h2)
  have hk : netKey a = netKey b := netKey_eq_of_not_lt h1 h2
  rcases le_total a b with h | h
  · exact Or.inl (Or.inr ⟨hk, h⟩)
  · exact Or.inr (Or.inr ⟨hk.symm, h⟩)

/-- The final ordering step of `get_ips_from_ipinfo_csv` (lines 146–149):
list the deduplicated set in ascending `ip_network` order. -/
def sortedCidrList (s : Finset String) : List String := s.sort cidrLE

/-- `get_ips_from_ipinfo_csv` of `main.py`, from the data rows (the
gzip/CSV framing and header-index discovery are the excluded I/O layer):
run the row loop, return `[]` when the set is empty (with a warning),
else the sorted unique CIDR strings. -/
def get_ips_from_ipinfo_csv (rows : List (List String))
    (target_country : String) (target_asns : List String) : List String :=
  let st := aggregate rows target_country target_asns
  if st.cidrs = ∅ then [] else sortedCidrList st.cidrs

/-- The decision core of `main()` in `main.py`, given the data rows and the
set of CIDR strings read from the existing snapshot file: returns the
process exit code and the content written to the output file (`none` when
the file is left untouched).  The file-write is assumed to succeed; the
`IOError` handler is outside the model. -/
def mainResult (rows : List (List String)) (existing_ips : Finset String) :
    Nat × Option String :=
  let china_ips_list := get_ips_from_ipinfo_csv rows COUNTRY_CODE AS_NUMBERS
  if china_ips_list = [] then (1, none)
  else
    let new_ips_set := china_ips_list.toFinset
    if new_ips_set = existing_ips then (0, none)
    else (0, some (String.intercalate "\n" china_ips_list ++ "\n"))

theorem trailingZerosAux_dvd :
    ∀ fuel n, n ≠ 0 → n ≤ fuel → 2 ^ trailingZerosAux fuel n ∣ n := by
  intro fuel
  induction fuel with
  | zero => intro n h0 hle; omega
  | succ fuel ih =>
    intro n h0 hle
    simp only [trailingZerosAux, h0, if_false]
    by_cases hodd : n % 2 = 1
    · simp [hodd]
    · simp only [hodd, if_false]
      have h2 : n % 2 = 0 := by omega
      have hhalf : n / 2 ≠ 0 := by omega
      have hfuel : n / 2 ≤ fuel := by omega
      set t := trailingZerosAux fuel (n / 2) with ht
      obtain ⟨c, hc⟩ := ih (n / 2) hhalf hfuel
      refine ⟨c, ?_⟩
      calc n = 2 * (n / 2) := by omega
        _ = 2 * (2 ^ t * c) := by rw [← ht] at hc; rw [hc]
        _ = 2 ^ (t + 1) * c := by rw [pow_succ]; ring

theorem trailingZerosAux_max :
    ∀ fuel n q, n ≠ 0 → n ≤ fuel → 2 ^ q ∣ n → q ≤ trailingZerosAux fuel n := by
  intro fuel
  induction fuel with
  | zero => intro n q h0 hle; omega
  | succ fuel ih =>
    intro n q h0 hle hdvd
    simp only [trailingZerosAux, h0, if_false]
    by_cases hodd : n % 2 = 1
    · simp only [hodd, if_true]
      by_contra hq
      have h1 : (2 : Nat) ^ 1 ∣ 2 ^ q := pow_dvd_pow 2 (by omega)
      obtain ⟨c, hc⟩ := h1.trans hdvd
      simp [pow_one] at hc
      omega
    · simp only [hodd, if_false]
      match q with
      | 0 => omega
      | q + 1 =>
        have h2 : n % 2 = 0 := by omega
        have hhalf : n / 2 ≠ 0 := by omega
        have hfuel : n / 2 ≤ fuel := by omega
        obtain ⟨c, hc⟩ := hdvd
        have hn : n = 2 ^ q * c * 2 := by rw [hc, pow_succ]; ring
        have hdvd2 : 2 ^ q ∣ n / 2 :=
          ⟨c, by rw [hn, Nat.mul_div_cancel _ (by norm_num : (0 : Nat) < 2)]⟩
        have := ih (n / 2) q hhalf hfuel hdvd2
        omega

theorem trailingZeros_dvd (n : Nat) (h : n ≠ 0) : 2 ^ trailingZeros n ∣ n :=
  trailingZerosAux_dvd n n h le_rfl

theorem trailingZeros_max (n q : Nat) (h : n ≠ 0) (hdvd : 2 ^ q ∣ n) :
    q ≤ trailingZeros n :=
  trailingZerosAux_max n n q h le_rfl hdvd

theorem bitLengthAux_zero : ∀ fuel, bitLengthAux fuel 0 = 0 := by
  intro fuel; cases fuel <;> simp [bitLengthAux]

theorem bitLengthAux_spec :
    ∀ fuel n, 0 < n → n ≤ fuel →
      2 ^ (bitLengthAux fuel n - 1) ≤ n ∧ n < 2 ^ bitLengthAux fuel n := by
  intro fuel
  induction fuel with
  | zero => intro n h0 hle; omega
  | succ fuel ih =>
    intro n h0 hle
    have h0' : n ≠ 0 := by omega
    simp only [bitLengthAux, h0', if_false]
    by_cases h1 : n = 1
    · subst h1
      simp [bitLengthAux_zero]
    · have hhalf : 0 < n / 2 := by omega
      have hfuel : n / 2 ≤ fuel := by omega
      obtain ⟨ihl, ihr⟩ := ih (n / 2) hhalf hfuel
      have hb : 1 ≤ bitLengthAux fuel (n / 2) := by
        by_contra hb
        have : bitLengthAux fuel (n / 2) = 0 := by omega
        rw [this] at ihr
        omega
      constructor
      · have : 2 ^ (bitLengthAux fuel (n / 2) + 1 - 1) =
            2 * 2 ^ (bitLengthAux fuel (n / 2) - 1) := by
          rw [Nat.add_sub_cancel, ← pow_succ']
          congr 1
          omega
        rw [this]
        omega
      · rw [pow_succ]
        omega

theorem bit_length_spec (n : Nat) (h : 0 < n) :
    2 ^ (bit_length n - 1) ≤ n ∧ n < 2 ^ bit_length n :=
  bitLengthAux_spec n n h le_rfl

theorem two_pow_pos (n : Nat) : 0 < 2 ^ n := pow_pos (by norm_num) n

/-- The chosen block is aligned at `first`. -/
theorem nbitsOf_dvd (first last : Nat) : 2 ^ nbitsOf first last ∣ first := by
  by_cases h0 : first = 0
  · simp [h0]
  · have h1 : nbitsOf first last ≤ trailingZeros first := by
      unfold nbitsOf count_righthand_zero_bits
      simp only [h0, if_false]
      omega
    exact (pow_dvd_pow 2 h1).trans (trailingZeros_dvd first h0)

/-- The chosen block fits inside `[first, last]`. -/
theorem nbitsOf_fits (first last : Nat) :
    2 ^ nbitsOf first last ≤ last - first + 1 := by
  have hpos : 0 < last - first + 1 := by omega
  have hspec := bit_length_spec (last - first + 1) hpos
  have h1 : nbitsOf first last ≤ bit_length (last - first + 1) - 1 := by
    unfold nbitsOf; omega
  calc 2 ^ nbitsOf first last ≤ 2 ^ (bit_length (last - first + 1) - 1) :=
        Nat.pow_le_pow_right (by norm_num) h1
    _ ≤ last - first + 1 := hspec.1

/-- The chosen block-size exponent is at most 32. -/
theorem nbitsOf_le_32 (first last : Nat) : nbitsOf first last ≤ 32 := by
  unfold nbitsOf count_righthand_zero_bits
  by_cases h0 : first = 0 <;> simp only [h0, if_true, if_false] <;> omega

/-- Greedy maximality: no larger aligned block starting at `first` fits. -/
theorem nbitsOf_max (first last q : Nat) (hq : q ≤ 32)
    (hdvd : 2 ^ q ∣ first) (hfit : 2 ^ q ≤ last - first + 1) :
    q ≤ nbitsOf first last := by
  have hpos : 0 < last - first + 1 := lt_of_lt_of_le (two_pow_pos q) hfit
  have hspec := bit_length_spec (last - first + 1) hpos
  have hB : q ≤ bit_length (last - first + 1) - 1 := by
    have hlt : 2 ^ q < 2 ^ bit_length (last - first + 1) :=
      lt_of_le_of_lt hfit hspec.2
    have := (Nat.pow_lt_pow_iff_right (by norm_num : 1 < 2)).mp hlt
    omega
  have hA : q ≤ count_righthand_zero_bits first 32 := by
    unfold count_righthand_zero_bits
    by_cases h0 : first = 0
    · simp [h0]; omega
    · have := trailingZeros_max first q h0 hdvd
      simp [h0]
      omega
  unfold nbitsOf
  omega

theorem summarizeAux_fuel_eq :
    ∀ f1 f2 first last, last + 1 - first ≤ f1 → last + 1 - first ≤ f2 →
      summarizeAux f1 first last = summarizeAux f2 first last := by
  intro f1
  induction f1 with
  | zero =>
    intro f2 first last h1 h2
    have hgt : ¬ first ≤ last := by omega
    cases f2 with
    | zero => rfl
    | succ f2 => simp [summarizeAux, hgt]
  | succ f1 ih =>
    intro f2 first last h1 h2
    by_cases hle : first ≤ last
    · cases f2 with
      | zero => omega
      | succ f2 =>
        simp only [summarizeAux, hle, if_true]
        have hpos := two_pow_pos (nbitsOf first last)
        by_cases hbreak : first + 2 ^ nbitsOf first last - 1 = 2 ^ 32 - 1
        · simp [hbreak]
        · simp only [hbreak, if_false]
          congr 1
          exact ih f2 (first + 2 ^ nbitsOf first last) last (by omega) (by omega)
    · cases f2 with
      | zero => simp [summarizeAux, hle]
      | succ f2 => simp [summarizeAux, hle]

/-- `summarize_address_range` on an empty interval. -/
theorem summarize_nil (first last : Nat) (h : last < first) :
    summarize_address_range first last = [] := by
  unfold summarize_address_range
  have h0 : last + 1 - first = 0 := by omega
  rw [h0]
  rfl

/-- Unfolding of `summarize_address_range` on a non-empty interval below
`2 ^ 32`: emit the greedy block and recurse past it.  (The `_ALL_ONES`
break of the Python loop coincides with the loop condition turning false
when `last < 2 ^ 32`.) -/
theorem summarize_cons (first last : Nat) (h : first ≤ last)
    (hlast : last < 2 ^ 32) :
    summarize_address_range first last =
      (first, 32 - nbitsOf first last) ::
        summarize_address_range (first + 2 ^ nbitsOf first last) last := by
  have hpos := two_pow_pos (nbitsOf first last)
  obtain ⟨f, hf⟩ : ∃ f, last + 1 - first = f + 1 := ⟨last - first, by omega⟩
  unfold summarize_address_range
  rw [hf]
  simp only [summarizeAux, h, if_true]
  by_cases hbreak : first + 2 ^ nbitsOf first last - 1 = 2 ^ 32 - 1
  · simp only [hbreak, if_true]
    have hfit := nbitsOf_fits first last
    have h32 : (2 : Nat) ^ 32 = 4294967296 := by norm_num
    have hnext : last < first + 2 ^ nbitsOf first last := by omega
    rw [show last + 1 - (first + 2 ^ nbitsOf first last) = 0 by omega]
    rfl
  · simp only [hbreak, if_false]
    congr 1
    exact summarizeAux_fuel_eq f (last + 1 - (first + 2 ^ nbitsOf first last))
      (first + 2 ^ nbitsOf first last) last (by omega) (by omega)

/-- `chainCovers s e l`: the blocks of `l`, in order, tile the interval
`[s, e]` exactly — each block is an aligned CIDR block (`prefixlen ≤ 32`,
network address divisible by the block size), each block starts exactly
where the previous one ended, and the last block ends at `e`
(`s = e + 1` encodes the already-exhausted interval).  This is the shape
of any ordered, non-overlapping, gap-free exact cover of `[s, e]` by CIDR
blocks. -/
def chainCovers : Nat → Nat → List (Nat × Nat) → Prop
  | s, e, [] => s = e + 1
  | s, e, b :: rest =>
    b.1 = s ∧ b.2 ≤ 32 ∧ 2 ^ (32 - b.2) ∣ s ∧ s + 2 ^ (32 - b.2) - 1 ≤ e ∧
      chainCovers (s + 2 ^ (32 - b.2)) e rest

/-- Every block of the list is the greedy choice: no strictly larger
aligned block starting at the same address stays within `[·, e]`. -/
def greedyBlocks (e : Nat) (l : List (Nat × Nat)) : Prop :=
  ∀ b ∈ l, ∀ q, q ≤ 32 → 2 ^ q ∣ b.1 → b.1 + 2 ^ q - 1 ≤ e → q ≤ 32 - b.2

theorem summarize_chainCovers_aux :
    ∀ K s e, e + 1 - s ≤ K → s ≤ e → e < 2 ^ 32 →
      chainCovers s e (summarize_address_range s e) := by
  intro K
  induction K with
  | zero => intro s e hK hse _; omega
  | succ K ih =>
    intro s e hK hse he
    rw [summarize_cons s e hse he]
    have hd := nbitsOf_dvd s e
    have hf := nbitsOf_fits s e
    have h32 := nbitsOf_le_32 s e
    have hpos := two_pow_pos (nbitsOf s e)
    have heq : 32 - (32 - nbitsOf s e) = nbitsOf s e := by omega
    refine ⟨rfl, by omega, ?_, ?_, ?_⟩
    · show 2 ^ (32 - (32 - nbitsOf s e)) ∣ s
      rw [heq]; exact hd
    · show s + 2 ^ (32 - (32 - nbitsOf s e)) - 1 ≤ e
      rw [heq]; omega
    · show chainCovers (s + 2 ^ (32 - (32 - nbitsOf s e))) e
        (summarize_address_range (s + 2 ^ nbitsOf s e) e)
      rw [heq]
      by_cases hnext : s + 2 ^ nbitsOf s e ≤ e
      · exact ih (s + 2 ^ nbitsOf s e) e (by omega) hnext he
      · have hstop : s + 2 ^ nbitsOf s e = e + 1 := by omega
        rw [summarize_nil _ _ (by omega)]
        show s + 2 ^ nbitsOf s e = e + 1
        omega

/-- The blocks emitted by `summarize_address_range` tile `[s, e]` exactly. -/
theorem summarize_chainCovers (s e : Nat) (hse : s ≤ e) (he : e < 2 ^ 32) :
    chainCovers s e (summarize_address_range s e) :=
  summarize_chainCovers_aux (e + 1 - s) s e le_rfl hse he

theorem summarize_greedy_aux :
    ∀ K s e, e + 1 - s ≤ K → s ≤ e → e < 2 ^ 32 →
      greedyBlocks e (summarize_address_range s e) := by
  intro K
  induction K with
  | zero => intro s e hK hse _; omega
  | succ K ih =>
    intro s e hK hse he
    rw [summarize_cons s e hse he]
    intro b hb q hq hdvd hfit
    have hn32 := nbitsOf_le_32 s e
    have hnpos := two_pow_pos (nbitsOf s e)
    rcases List.mem_cons.mp hb with rfl | hb'
    · show q ≤ 32 - (32 - nbitsOf s e)
      have hqpos := two_pow_pos q
      have hfit' : 2 ^ q ≤ e - s + 1 := by
        have : (s, 32 - nbitsOf s e).1 = s := rfl
        rw [this] at hfit
        omega
      have := nbitsOf_max s e q hq hdvd hfit'
      omega
    · by_cases hnext : s + 2 ^ nbitsOf s e ≤ e
      · exact ih (s + 2 ^ nbitsOf s e) e (by omega) hnext he b hb' q hq hdvd hfit
      · rw [summarize_nil _ _ (by omega)] at hb'
        simp at hb'

/-- Every block of `summarize_address_range` is the greedy
largest-aligned-block choice. -/
theorem summarize_greedy (s e : Nat) (hse : s ≤ e) (he : e < 2 ^ 32) :
    greedyBlocks e (summarize_address_range s e) :=
  summarize_greedy_aux (e + 1 - s) s e le_rfl hse he

theorem chainCovers_bounds :
    ∀ l s e, chainCovers s e l →
      ∀ b ∈ l, s ≤ b.1 ∧ b.1 + 2 ^ (32 - b.2) - 1 ≤ e := by
  intro l
  induction l with
  | nil => intro s e _ b hb; simp at hb
  | cons b0 rest ih =>
    intro s e h b hb
    obtain ⟨hb1, _, _, hfit, hrest⟩ := h
    rcases List.mem_cons.mp hb with rfl | hb'
    · exact ⟨le_of_eq hb1.symm, by rw [hb1]; exact hfit⟩
    · have hpos := two_pow_pos (32 - b0.2)
      have := ih (s + 2 ^ (32 - b0.2)) e hrest b hb'
      exact ⟨by omega, this.2⟩

theorem chainCovers_pairwise :
    ∀ l s e, chainCovers s e l →
      l.Pairwise (fun b c => b.1 + 2 ^ (32 - b.2) - 1 < c.1) := by
  intro l
  induction l with
  | nil => intro s e _; exact List.Pairwise.nil
  | cons b0 rest ih =>
    intro s e h
    obtain ⟨hb1, _, _, hfit, hrest⟩ := h
    constructor
    · intro c hc
      have hcb := (chainCovers_bounds rest _ e hrest c hc).1
      have hpos := two_pow_pos (32 - b0.2)
      omega
    · exact ih _ e hrest

theorem chainCovers_mem_iff :
    ∀ l s e x, chainCovers s e l →
      ((s ≤ x ∧ x ≤ e) ↔ ∃ b ∈ l, b.1 ≤ x ∧ x ≤ b.1 + 2 ^ (32 - b.2) - 1) := by
  intro l
  induction l with
  | nil =>
    intro s e x h
    simp only [chainCovers] at h
    simp only [List.not_mem_nil, false_and, exists_false, iff_false, not_and]
    omega
  | cons b0 rest ih =>
    intro s e x h
    obtain ⟨hb1, _, _, hfit, hrest⟩ := h
    have hpos := two_pow_pos (32 - b0.2)
    have ihx := ih (s + 2 ^ (32 - b0.2)) e x hrest
    constructor
    · rintro ⟨hx1, hx2⟩
      by_cases hin : x ≤ s + 2 ^ (32 - b0.2) - 1
      · exact ⟨b0, List.mem_cons_self _ _, by omega, by omega⟩
      · obtain ⟨b, hb, hbx⟩ := ihx.mp ⟨by omega, hx2⟩
        exact ⟨b, List.mem_cons_of_mem _ hb, hbx⟩
    · rintro ⟨b, hb, hbx1, hbx2⟩
      rcases List.mem_cons.mp hb with rfl | hb'
      · rw [hb1] at hbx1 hbx2
        omega
      · have hbnd := chainCovers_bounds rest _ e hrest b hb'
        exact ⟨by omega, by omega⟩

theorem summarize_len_cons (s e : Nat) (hse : s ≤ e) (he : e < 2 ^ 32) :
    (summarize_address_range s e).length =
      (summarize_address_range (s + 2 ^ nbitsOf s e) e).length + 1 := by
  rw [summarize_cons s e hse he]
  rfl

/-- Advancing the greedy conversion from any interior point of an aligned
block that fits in `[·, e]` uses at least as many blocks as starting past
that block: greedy steps taken strictly inside `[s, s + 2 ^ N)` never cross
`s + 2 ^ N`. -/
theorem greedy_reach (e : Nat) (he : e < 2 ^ 32) :
    ∀ r s N m, 2 ^ N ∣ s → s + 2 ^ N - 1 ≤ e → s < m → m ≤ s + 2 ^ N →
      s + 2 ^ N - m ≤ r →
      (summarize_address_range (s + 2 ^ N) e).length ≤
        (summarize_address_range m e).length := by
  intro r
  induction r with
  | zero =>
    intro s N m _ _ _ hm hr
    have : m = s + 2 ^ N := by omega
    rw [this]
  | succ r ih =>
    intro s N m hdvd hfit hsm hm hr
    by_cases hme : m = s + 2 ^ N
    · rw [hme]
    · have hmlt : m < s + 2 ^ N := by omega
      have hNpos := two_pow_pos N
      have hmle : m ≤ e := by omega
      set k := nbitsOf m e with hk
      have hkd : 2 ^ k ∣ m := nbitsOf_dvd m e
      have hkpos := two_pow_pos k
      have hkN : k < N := by
        by_contra hkN
        have h2 : 2 ^ N ∣ m := (pow_dvd_pow 2 (by omega)).trans hkd
        have h3 : 2 ^ N ∣ m - s := Nat.dvd_sub' h2 hdvd
        obtain ⟨c, hc⟩ := h3
        rcases Nat.eq_zero_or_pos c with rfl | hcpos
        · omega
        · have : 2 ^ N * 1 ≤ 2 ^ N * c := Nat.mul_le_mul_left _ hcpos
          omega
      have hks : 2 ^ k ∣ s := (pow_dvd_pow 2 hkN.le).trans hdvd
      have hkms : 2 ^ k ∣ m - s := Nat.dvd_sub' hkd hks
      have hbound : m + 2 ^ k ≤ s + 2 ^ N := by
        obtain ⟨c, hc⟩ := hkms
        have hNk : 2 ^ N = 2 ^ (N - k) * 2 ^ k := by
          rw [← pow_add]; congr 1; omega
        have hclt : c < 2 ^ (N - k) := by
          by_contra hcge
          have : 2 ^ (N - k) * 2 ^ k ≤ c * 2 ^ k :=
            Nat.mul_le_mul_right _ (by omega)
          have hc' : c * 2 ^ k = 2 ^ k * c := by ring
          omega
        have hstep : 2 ^ k * c + 2 ^ k ≤ 2 ^ (N - k) * 2 ^ k := by
          have h1 : 2 ^ k * c + 2 ^ k = (c + 1) * 2 ^ k := by ring
          have h2 : (c + 1) * 2 ^ k ≤ 2 ^ (N - k) * 2 ^ k :=
            Nat.mul_le_mul_right _ (by omega)
          omega
        omega
      have hstep := summarize_len_cons m e hmle he
      rw [← hk] at hstep
      by_cases hend : m + 2 ^ k = s + 2 ^ N
      · rw [hstep, hend]
        omega
      · have hih := ih s N (m + 2 ^ k) hdvd hfit (by omega) (by omega) (by omega)
        rw [hstep]
        omega

/-- Minimality of the greedy conversion: no exact chain cover of `[s, e]`
by aligned CIDR blocks uses fewer blocks. -/
theorem summarize_minimal_aux :
    ∀ K s e, e + 1 - s ≤ K → s ≤ e → e < 2 ^ 32 →
      ∀ l, chainCovers s e l → (summarize_address_range s e).length ≤ l.length := by
  intro K
  induction K with
  | zero => intro s e hK hse _; omega
  | succ K ih =>
    intro s e hK hse he l hl
    match l with
    | [] =>
      have : s = e + 1 := hl
      omega
    | b :: rest =>
      obtain ⟨hb1, hb2, hdvd, hfit, hrest⟩ := hl
      have hqpos := two_pow_pos (32 - b.2)
      have hqmax : 32 - b.2 ≤ nbitsOf s e :=
        nbitsOf_max s e (32 - b.2) (by omega) hdvd (by omega)
      have hnpos := two_pow_pos (nbitsOf s e)
      have hnfit := nbitsOf_fits s e
      rw [summarize_len_cons s e hse he]
      have hmono : 2 ^ (32 - b.2) ≤ 2 ^ nbitsOf s e :=
        Nat.pow_le_pow_right (by norm_num) hqmax
      have hreach : (summarize_address_range (s + 2 ^ nbitsOf s e) e).length ≤
          (summarize_address_range (s + 2 ^ (32 - b.2)) e).length := by
        rcases eq_or_lt_of_le hqmax with heq | _
        · rw [heq]
        · exact greedy_reach e he (s + 2 ^ nbitsOf s e - (s + 2 ^ (32 - b.2)))
            s (nbitsOf s e) (s + 2 ^ (32 - b.2)) (nbitsOf_dvd s e) (by omega)
            (by omega) (by omega) (by omega)
      by_cases hnext : s + 2 ^ (32 - b.2) ≤ e
      · have hr := ih (s + 2 ^ (32 - b.2)) e (by omega) hnext he rest hrest
        simp only [List.length_cons]
        omega
      · have hempty : summarize_address_range (s + 2 ^ (32 - b.2)) e = [] :=
          summarize_nil _ _ (by omega)
        rw [hempty] at hreach
        simp only [List.length_cons, List.length_nil] at hreach ⊢
        omega

/-- Minimality, packaged. -/
theorem summarize_minimal (s e : Nat) (hse : s ≤ e) (he : e < 2 ^ 32) :
    ∀ l, chainCovers s e l →
      (summarize_address_range s e).length ≤ l.length :=
  summarize_minimal_aux (e + 1 - s) s e le_rfl hse he

theorem parse_octet_le (l : List Char) (n : Nat) (h : parse_octet l = some n) :
    n ≤ 255 := by
  unfold parse_octet at h
  split_ifs at h <;> simp_all <;> omega

theorem mapM_parse_octet_bound :
    ∀ (xs : List (List Char)) (parts : List Nat),
      xs.mapM parse_octet = some parts → ∀ v ∈ parts, v ≤ 255 := by
  intro xs
  induction xs with
  | nil =>
    intro parts h v hv
    simp only [List.mapM_nil, Option.pure_def, Option.some.injEq] at h
    subst h
    simp at hv
  | cons x xs ih =>
    intro parts h v hv
    rw [List.mapM_cons] at h
    cases hx : parse_octet x with
    | none => rw [hx] at h; simp at h
    | some a =>
      rw [hx] at h
      cases hxs : xs.mapM parse_octet with
      | none => rw [hxs] at h; simp at h
      | some rest =>
        rw [hxs] at h
        simp only [Option.pure_def, Option.bind_eq_bind, Option.some_bind,
          Option.some.injEq] at h
        subst h
        rcases List.mem_cons.mp hv with rfl | hv'
        · exact parse_octet_le x v hx
        · exact ih rest hxs v hv'

theorem ipv4_int_lt (l : List Char) (n : Nat)
    (h : ipv4_int_from_chars l = some n) : n < 2 ^ 32 := by
  unfold ipv4_int_from_chars at h
  cases hm : (splitSep '.' l).mapM parse_octet with
  | none => rw [hm] at h; simp at h
  | some parts =>
    rw [hm] at h
    have hbound := mapM_parse_octet_bound _ _ hm
    rcases parts with _ | ⟨a, _ | ⟨b, _ | ⟨c, _ | ⟨d, _ | ⟨e5, rest⟩⟩⟩⟩⟩ <;>
      simp only [Option.some.injEq] at h
    · exact absurd h (by simp)
    · exact absurd h (by simp)
    · exact absurd h (by simp)
    · exact absurd h (by simp)
    · have ha : a ≤ 255 := hbound a (by simp)
      have hb : b ≤ 255 := hbound b (by simp)
      have hc : c ≤ 255 := hbound c (by simp)
      have hd : d ≤ 255 := hbound d (by simp)
      have h32 : (2 : Nat) ^ 32 = 4294967296 := by norm_num
      omega
    · exact absurd h (by simp)

theorem ip_address_v4_lt (s : String) (a : Nat)
    (h : ip_address s = some (.v4 a)) : a < 2 ^ 32 := by
  unfold ip_address at h
  cases hp : parseIPv4 s with
  | none =>
    rw [hp] at h
    split_ifs at h <;> simp_all
  | some n =>
    rw [hp] at h
    simp only [Option.some.injEq, PyAddr.v4.injEq] at h
    subst h
    exact ipv4_int_lt s.data n hp

/-- Success path of `ip_range_to_cidr`: both addresses parse as IPv4 and
`start ≤ end`, so the function returns the stringified summarize blocks. -/
theorem ip_range_to_cidr_ok (ss es : String) (a b : Nat)
    (hs : ip_address ss = some (.v4 a)) (hes : ip_address es = some (.v4 b))
    (hab : a ≤ b) :
    ip_range_to_cidrE ss es =
      .ok ((summarize_address_range a b).map cidrString) ∧
    ip_range_to_cidr ss es = (summarize_address_range a b).map cidrString := by
  have h1 : ip_range_to_cidrE ss es =
      .ok ((summarize_address_range a b).map cidrString) := by
    unfold ip_range_to_cidrE
    rw [hs, hes]
    simp only [gt_iff_lt]
    rw [if_neg (by omega)]
  exact ⟨h1, by unfold ip_range_to_cidr; rw [h1]⟩

theorem chainCovers_aligned :
    ∀ l s e, chainCovers s e l →
      ∀ blk ∈ l, blk.2 ≤ 32 ∧ 2 ^ (32 - blk.2) ∣ blk.1 := by
  intro l
  induction l with
  | nil => intro s e _ blk hblk; simp at hblk
  | cons b0 rest ih =>
    intro s e h blk hblk
    obtain ⟨hb1, hb2, hdvd, _, hrest⟩ := h
    rcases List.mem_cons.mp hblk with rfl | hblk'
    · exact ⟨hb2, by rw [hb1]; exact hdvd⟩
    · exact ih _ e hrest blk hblk'

theorem summarize_ne_nil (s e : Nat) (hse : s ≤ e) (he : e < 2 ^ 32) :
    summarize_address_range s e ≠ [] := by
  rw [summarize_cons s e hse he]
  exact List.cons_ne_nil _ _

/-- C1: for every pair of valid IPv4 addresses with `start ≤ end`,
`ip_range_to_cidr` returns the stringified greedy block list, which is a
non-empty ordered chain of aligned CIDR blocks whose spans are pairwise
disjoint and whose union is exactly `[start, end]`, each block chosen by
the greedy largest-aligned-block rule, and of minimal cardinality among
all exact chain covers of `[start, end]` by aligned CIDR blocks. -/
theorem ip_range_to_cidr_exact_minimal_cover (ss es : String) (a b : Nat)
    (hs : ip_address ss = some (.v4 a)) (hes : ip_address es = some (.v4 b))
    (hab : a ≤ b) :
    ip_range_to_cidr ss es = (summarize_address_range a b).map cidrString ∧
    summarize_address_range a b ≠ [] ∧
    chainCovers a b (summarize_address_range a b) ∧
    (∀ x, (a ≤ x ∧ x ≤ b) ↔
      ∃ blk ∈ summarize_address_range a b,
        blk.1 ≤ x ∧ x ≤ blk.1 + 2 ^ (32 - blk.2) - 1) ∧
    (summarize_address_range a b).Pairwise
      (fun blk c => blk.1 + 2 ^ (32 - blk.2) - 1 < c.1) ∧
    (∀ blk ∈ summarize_address_range a b,
      blk.2 ≤ 32 ∧ 2 ^ (32 - blk.2) ∣ blk.1) ∧
    greedyBlocks b (summarize_address_range a b) ∧
    (∀ l, chainCovers a b l →
      (summarize_address_range a b).length ≤ l.length) := by
  have hblt : b < 2 ^ 32 := ip_address_v4_lt es b hes
  have hchain := summarize_chainCovers a b hab hblt
  refine ⟨(ip_range_to_cidr_ok ss es a b hs hes hab).2,
    summarize_ne_nil a b hab hblt, hchain,
    fun x => chainCovers_mem_iff _ a b x hchain,
    chainCovers_pairwise _ a b hchain,
    chainCovers_aligned _ a b hchain,
    summarize_greedy a b hab hblt,
    summarize_minimal a b hab hblt⟩

/-- Witness for C1 at the spec's scenario 3: `[1.0.0.1, 1.0.0.3]` is
converted to the two greedy blocks `1.0.0.1/32`, `1.0.0.2/31`. -/
theorem ip_range_to_cidr_exact_minimal_cover_witness :
    ip_range_to_cidr "1.0.0.1" "1.0.0.3" =
      (summarize_address_range 16777217 16777219).map cidrString ∧
    summarize_address_range 16777217 16777219 ≠ [] :=
  (fun h => ⟨h.1, h.2.1⟩)
    (ip_range_to_cidr_exact_minimal_cover "1.0.0.1" "1.0.0.3" 16777217 16777219
      (by decide) (by decide) (by decide))

instance : DecidableEq (Except ConvError (List String)) := fun x y =>
  match x, y with
  | .ok a, .ok b => decidable_of_iff (a = b) (by simp)
  | .error a, .error b => decidable_of_iff (a = b) (by simp)
  | .ok _, .error _ => isFalse (by simp)
  | .error _, .ok _ => isFalse (by simp)

/-- The combined condition under which a row reaches the conversion step:
long enough for every required index, and passing the country/ASN filter. -/
def rowMatched (target_country : String) (target_asns : List String)
    (row : List String) : Bool :=
  decide (max_required_index < row.length) &&
    rowMatchesFilter target_country target_asns row

/-- The set of CIDR strings a single row contributes to the dedup set. -/
def rowCidrs (target_country : String) (target_asns : List String)
    (row : List String) : Finset String :=
  if rowMatched target_country target_asns row then
    (ip_range_to_cidr (row.getD start_ip_idx "") (row.getD end_ip_idx "")).toFinset
  else ∅

/-- Normal form of one loop iteration. -/
theorem processRow_eq (tc : String) (tasns : List String) (st : AggState)
    (row : List String) :
    processRow tc tasns st row =
      { cidrs := st.cidrs ∪ rowCidrs tc tasns row,
        processed_rows := st.processed_rows + 1,
        matched_rows :=
          st.matched_rows + (if rowMatched tc tasns row then 1 else 0) } := by
  unfold processRow rowCidrs rowMatched
  by_cases h1 : row.length ≤ max_required_index
  · rw [if_pos h1]
    have h2 : decide (max_required_index < row.length) = false := by
      simp
      omega
    rw [h2]
    simp
  · rw [if_neg h1]
    have h2 : decide (max_required_index < row.length) = true := by
      simp
      omega
    rw [h2]
    by_cases h3 : rowMatchesFilter tc tasns row
    · simp [h3]
    · simp only [Bool.not_eq_true] at h3
      simp [h3]

theorem foldl_processRow_processed (tc : String) (tasns : List String) :
    ∀ (rows : List (List String)) (st : AggState),
      (rows.foldl (processRow tc tasns) st).processed_rows =
        st.processed_rows + rows.length := by
  intro rows
  induction rows with
  | nil => intro st; simp
  | cons row rows ih =>
    intro st
    simp only [List.foldl_cons, List.length_cons]
    rw [ih, processRow_eq]
    dsimp only
    omega

theorem foldl_processRow_matched (tc : String) (tasns : List String) :
    ∀ (rows : List (List String)) (st : AggState),
      (rows.foldl (processRow tc tasns) st).matched_rows =
        st.matched_rows + rows.countP (rowMatched tc tasns) := by
  intro rows
  induction rows with
  | nil => intro st; simp
  | cons row rows ih =>
    intro st
    simp only [List.foldl_cons]
    rw [ih, processRow_eq, List.countP_cons]
    by_cases h : rowMatched tc tasns row <;> simp [h] <;> omega

theorem foldl_processRow_cidrs (tc : String) (tasns : List String) :
    ∀ (rows : List (List String)) (st1 st2 : AggState),
      st1.cidrs = st2.cidrs →
      (rows.foldl (processRow tc tasns) st1).cidrs =
        (rows.foldl (processRow tc tasns) st2).cidrs := by
  intro rows
  induction rows with
  | nil => intro st1 st2 h; exact h
  | cons row rows ih =>
    intro st1 st2 h
    simp only [List.foldl_cons]
    apply ih
    rw [processRow_eq, processRow_eq]
    simp only [h]

theorem get_ips_eq_of_cidrs_eq (rows1 rows2 : List (List String))
    (tc : String) (tasns : List String)
    (h : (aggregate rows1 tc tasns).cidrs = (aggregate rows2 tc tasns).cidrs) :
    get_ips_from_ipinfo_csv rows1 tc tasns =
      get_ips_from_ipinfo_csv rows2 tc tasns := by
  show (if (aggregate rows1 tc tasns).cidrs = ∅ then []
      else sortedCidrList (aggregate rows1 tc tasns).cidrs) =
    (if (aggregate rows2 tc tasns).cidrs = ∅ then []
      else sortedCidrList (aggregate rows2 tc tasns).cidrs)
  rw [h]

/-- A row whose conversion yields no blocks leaves the dedup set — and
hence the final output — unchanged, while still being processed. -/
theorem skipped_row_passthrough (tc : String) (tasns : List String)
    (pre post : List (List String)) (row : List String)
    (hconv : ip_range_to_cidr (row.getD start_ip_idx "")
      (row.getD end_ip_idx "") = []) :
    get_ips_from_ipinfo_csv (pre ++ row :: post) tc tasns =
      get_ips_from_ipinfo_csv (pre ++ post) tc tasns ∧
    (aggregate (pre ++ row :: post) tc tasns).processed_rows =
      pre.length + post.length + 1 := by
  have hrow : rowCidrs tc tasns row = ∅ := by
    unfold rowCidrs
    rw [hconv]
    split_ifs <;> simp
  constructor
  · apply get_ips_eq_of_cidrs_eq
    unfold aggregate
    rw [List.foldl_append, List.foldl_append, List.foldl_cons]
    apply foldl_processRow_cidrs
    rw [processRow_eq, hrow]
    simp
  · unfold aggregate
    rw [foldl_processRow_processed]
    simp
    omega

/-- Every error exit of the conversion returns the empty list. -/
theorem ip_range_to_cidr_of_err (ss es : String) (err : ConvError)
    (herr : ip_range_to_cidrE ss es = .error err) :
    ip_range_to_cidr ss es = [] := by
  unfold ip_range_to_cidr
  rw [herr]

/-- C10: `ip_range_to_cidr` is total at its public interface — it always
returns a list of strings, and every failure path of the conversion
(unparseable address, non-IPv4 address, start greater than end) returns
the empty list instead of propagating an exception. -/
theorem ip_range_to_cidr_total (ss es : String) :
    (∃ l : List String, ip_range_to_cidr ss es = l) ∧
    (∀ err, ip_range_to_cidrE ss es = .error err → ip_range_to_cidr ss es = []) :=
  ⟨⟨_, rfl⟩, fun err herr => ip_range_to_cidr_of_err ss es err herr⟩

/-- Witness for C10: an unparseable start address yields `[]`. -/
theorem ip_range_to_cidr_total_witness :
    ip_range_to_cidr "not-an-ip" "1.2.3.4" = [] :=
  (ip_range_to_cidr_total "not-an-ip" "1.2.3.4").2 .malformed (by decide)

/-- C5: a row whose start address exceeds its end address (as 32-bit
integers) makes the conversion fail through the `start > end` warning path
(`RangeOrderError`), produces no blocks, and the aggregation processes the
surrounding rows exactly as if the bad row were absent — a single reversed
range never aborts the run. -/
theorem rangeOrder_row_skipped (tc asn : String) (tasns : List String)
    (pre post : List (List String)) (ss es : String) (a b : Nat)
    (hs : ip_address ss = some (.v4 a)) (hes : ip_address es = some (.v4 b))
    (hab : b < a) :
    ip_range_to_cidrE ss es = .error .rangeOrder ∧
    ip_range_to_cidr ss es = [] ∧
    get_ips_from_ipinfo_csv (pre ++ [ss, es, tc, asn] :: post) tc tasns =
      get_ips_from_ipinfo_csv (pre ++ post) tc tasns ∧
    (aggregate (pre ++ [ss, es, tc, asn] :: post) tc tasns).processed_rows =
      pre.length + post.length + 1 := by
  have h1 : ip_range_to_cidrE ss es = .error .rangeOrder := by
    unfold ip_range_to_cidrE
    rw [hs, hes]
    simp only [gt_iff_lt]
    rw [if_pos hab]
  have h2 : ip_range_to_cidr ss es = [] :=
    ip_range_to_cidr_of_err ss es .rangeOrder h1
  have h34 := skipped_row_passthrough tc tasns pre post [ss, es, tc, asn] h2
  exact ⟨h1, h2, h34.1, h34.2⟩

/-- Witness for C5: a reversed range `2.0.0.0–1.0.0.0` in the middle of a
run is warned about and skipped; the other row still produces its block. -/
theorem rangeOrder_row_skipped_witness :
    ip_range_to_cidrE "2.0.0.0" "1.0.0.0" = .error .rangeOrder ∧
    get_ips_from_ipinfo_csv
        [["1.0.0.0", "1.0.0.255", "CN", "AS4134"],
         ["2.0.0.0", "1.0.0.0", "CN", "AS4134"]] "CN" AS_NUMBERS =
      get_ips_from_ipinfo_csv
        [["1.0.0.0", "1.0.0.255", "CN", "AS4134"]] "CN" AS_NUMBERS :=
  (fun h => ⟨h.1, h.2.2.1⟩)
    (rangeOrder_row_skipped "CN" "AS4134" AS_NUMBERS
      [["1.0.0.0", "1.0.0.255", "CN", "AS4134"]] [] "2.0.0.0" "1.0.0.0"
      33554432 16777216 (by decide) (by decide) (by decide))

/-- C6: a row whose addresses parse but are not both IPv4 (e.g. IPv6
strings containing `':'`) makes the conversion fail through the
`version != 4` path (`UnsupportedAddressFamilyError`), produces no blocks,
and the row is skipped without affecting the rest of the aggregation. -/
theorem nonIPv4_row_skipped (tc asn : String) (tasns : List String)
    (pre post : List (List String)) (ss es : String) (A B : PyAddr)
    (hs : ip_address ss = some A) (hes : ip_address es = some B)
    (hv6 : A = .v6 ∨ B = .v6) :
    ip_range_to_cidrE ss es = .error .unsupportedFamily ∧
    ip_range_to_cidr ss es = [] ∧
    get_ips_from_ipinfo_csv (pre ++ [ss, es, tc, asn] :: post) tc tasns =
      get_ips_from_ipinfo_csv (pre ++ post) tc tasns ∧
    (aggregate (pre ++ [ss, es, tc, asn] :: post) tc tasns).processed_rows =
      pre.length + post.length + 1 := by
  have h1 : ip_range_to_cidrE ss es = .error .unsupportedFamily := by
    unfold ip_range_to_cidrE
    rw [hs, hes]
    cases A with
    | v4 a =>
      cases B with
      | v4 b => simp at hv6
      | v6 => rfl
    | v6 => cases B <;> rfl
  have h2 : ip_range_to_cidr ss es = [] :=
    ip_range_to_cidr_of_err ss es .unsupportedFamily h1
  have h34 := skipped_row_passthrough tc tasns pre post [ss, es, tc, asn] h2
  exact ⟨h1, h2, h34.1, h34.2⟩

/-- Witness for C6: an IPv6 row `::1–::2` is skipped via the unsupported
address family path, leaving the rest of the aggregation untouched. -/
theorem nonIPv4_row_skipped_witness :
    ip_range_to_cidrE "::1" "::2" = .error .unsupportedFamily ∧
    get_ips_from_ipinfo_csv
        [["1.0.0.0", "1.0.0.255", "CN", "AS4134"],
         ["::1", "::2", "CN", "AS4134"]] "CN" AS_NUMBERS =
      get_ips_from_ipinfo_csv
        [["1.0.0.0", "1.0.0.255", "CN", "AS4134"]] "CN" AS_NUMBERS :=
  (fun h => ⟨h.1, h.2.2.1⟩)
    (nonIPv4_row_skipped "CN" "AS4134" AS_NUMBERS
      [["1.0.0.0", "1.0.0.255", "CN", "AS4134"]] [] "::1" "::2" .v6 .v6
      (by decide) (by decide) (Or.inl rfl))

/-- C2: the matching predicate of the aggregator is exact — a row matches
iff its country field equals the target country and its ASN field is an
element (exact string equality, no substring/prefix matching) of the
target ASN list; in particular an `AS48371` row does not match the
configured `AS_NUMBERS`, which contain `AS4837`. -/
theorem asn_matching_exact :
    (∀ (tc : String) (tasns : List String) (row : List String),
      rowMatchesFilter tc tasns row = true ↔
        row.getD country_idx "" = tc ∧ row.getD asn_idx "" ∈ tasns) ∧
    rowMatchesFilter "CN" AS_NUMBERS
      ["1.0.0.0", "1.0.0.255", "CN", "AS48371"] = false ∧
    "AS4837" ∈ AS_NUMBERS ∧
    get_ips_from_ipinfo_csv [["1.0.0.0", "1.0.0.255", "CN", "AS48371"]]
      "CN" AS_NUMBERS = [] ∧
    (aggregate [["1.0.0.0", "1.0.0.255", "CN", "AS48371"]]
      "CN" AS_NUMBERS).matched_rows = 0 := by
  refine ⟨?_, by decide, by decide, by decide, by decide⟩
  intro tc tasns row
  unfold rowMatchesFilter
  rw [Bool.and_eq_true, beq_iff_eq, List.elem_iff]

/-- Witness for C2 at a concrete matching row. -/
theorem asn_matching_exact_witness :
    rowMatchesFilter "CN" AS_NUMBERS
      ["1.0.0.0", "1.0.0.255", "CN", "AS48371"] = false :=
  asn_matching_exact.2.1

theorem processRow_comm (tc : String) (tasns : List String)
    (st : AggState) (r1 r2 : List String) :
    processRow tc tasns (processRow tc tasns st r1) r2 =
      processRow tc tasns (processRow tc tasns st r2) r1 := by
  rw [processRow_eq, processRow_eq, processRow_eq, processRow_eq]
  dsimp only
  simp only [AggState.mk.injEq]
  exact ⟨Finset.union_right_comm _ _ _, trivial, Nat.add_right_comm _ _ _⟩

/-- C4: the aggregation result is invariant under permutation of the input
rows — the filter, dedup set, and final sort are order-independent. -/
theorem aggregate_perm_invariant (rows1 rows2 : List (List String))
    (tc : String) (tasns : List String) (h : rows1.Perm rows2) :
    get_ips_from_ipinfo_csv rows1 tc tasns =
      get_ips_from_ipinfo_csv rows2 tc tasns := by
  have hagg : aggregate rows1 tc tasns = aggregate rows2 tc tasns :=
    h.foldl_eq' (fun x _ y _ z => processRow_comm tc tasns z x y) ⟨∅, 0, 0⟩
  exact get_ips_eq_of_cidrs_eq rows1 rows2 tc tasns (by rw [hagg])

/-- Witness for C4: swapping two rows leaves the output unchanged. -/
theorem aggregate_perm_invariant_witness :
    get_ips_from_ipinfo_csv
        [["9.0.0.0", "9.0.0.3", "CN", "AS4837"],
         ["1.0.0.0", "1.0.0.255", "CN", "AS4134"]] "CN" AS_NUMBERS =
      get_ips_from_ipinfo_csv
        [["1.0.0.0", "1.0.0.255", "CN", "AS4134"],
         ["9.0.0.0", "9.0.0.3", "CN", "AS4837"]] "CN" AS_NUMBERS :=
  aggregate_perm_invariant _ _ "CN" AS_NUMBERS (by decide)

/-- C7 counterexample: two single-row inputs whose rows are skipped for
different reasons (reversed range vs. IPv6 family) leave the aggregation
in identical states — the same dedup set and the same two counters the
function maintains (`processed_rows`, `matched_rows`).  No
skipped-by-reason count exists anywhere in the state, so the caller cannot
observe why (or that) a row was skipped. -/
theorem skip_reason_not_exposed_counterexample :
    aggregate [["2.0.0.0", "1.0.0.0", "CN", "AS4134"]] "CN" AS_NUMBERS =
      aggregate [["::1", "::2", "CN", "AS4134"]] "CN" AS_NUMBERS ∧
    ip_range_to_cidrE "2.0.0.0" "1.0.0.0" = .error .rangeOrder ∧
    ip_range_to_cidrE "::1" "::2" = .error .unsupportedFamily := by
  refine ⟨by decide, by decide, by decide⟩

/-- C7 (amended): the aggregation maintains exactly two diagnostic
counters — total rows processed and rows matched by the length guard plus
country/ASN filter — and reports them in its completion log; no
skipped-by-reason counters are kept or returned. -/
theorem aggregate_counters (rows : List (List String)) (tc : String)
    (tasns : List String) :
    (aggregate rows tc tasns).processed_rows = rows.length ∧
    (aggregate rows tc tasns).matched_rows =
      rows.countP (rowMatched tc tasns) := by
  unfold aggregate
  rw [foldl_processRow_processed, foldl_processRow_matched]
  exact ⟨Nat.zero_add _, Nat.zero_add _⟩

theorem aggregate_cidrs_of_no_match (tc : String) (tasns : List String) :
    ∀ (rows : List (List String)) (st : AggState),
      (∀ row ∈ rows, rowMatched tc tasns row = false) →
      (rows.foldl (processRow tc tasns) st).cidrs = st.cidrs := by
  intro rows
  induction rows with
  | nil => intro st _; rfl
  | cons row rows ih =>
    intro st h
    simp only [List.foldl_cons]
    rw [ih _ (fun r hr => h r (List.mem_cons_of_mem _ hr))]
    rw [processRow_eq]
    dsimp only
    have hm : rowCidrs tc tasns row = ∅ := by
      unfold rowCidrs
      rw [h row (List.mem_cons_self _ _)]
      rfl
    rw [hm, Finset.union_empty]

/-- C8: when no row matches the country/ASN predicate the aggregation
returns the empty list (not an error), and `main` — the caller — applies
the fatal-empty policy: exit code 1 and no write to the snapshot file. -/
theorem empty_result_policy (rows : List (List String)) (existing : Finset String)
    (h : ∀ row ∈ rows, rowMatched COUNTRY_CODE AS_NUMBERS row = false) :
    get_ips_from_ipinfo_csv rows COUNTRY_CODE AS_NUMBERS = [] ∧
    mainResult rows existing = (1, none) := by
  have hcidrs : (aggregate rows COUNTRY_CODE AS_NUMBERS).cidrs = ∅ :=
    aggregate_cidrs_of_no_match COUNTRY_CODE AS_NUMBERS rows ⟨∅, 0, 0⟩ h
  have hips : get_ips_from_ipinfo_csv rows COUNTRY_CODE AS_NUMBERS = [] := by
    show (if (aggregate rows COUNTRY_CODE AS_NUMBERS).cidrs = ∅ then []
      else sortedCidrList (aggregate rows COUNTRY_CODE AS_NUMBERS).cidrs) = []
    rw [if_pos hcidrs]
  refine ⟨hips, ?_⟩
  show (if get_ips_from_ipinfo_csv rows COUNTRY_CODE AS_NUMBERS = []
      then ((1 : Nat), (none : Option String))
      else if (get_ips_from_ipinfo_csv rows COUNTRY_CODE AS_NUMBERS).toFinset
          = existing then (0, none)
      else (0, some (String.intercalate "\n"
        (get_ips_from_ipinfo_csv rows COUNTRY_CODE AS_NUMBERS) ++ "\n"))) =
    (1, none)
  rw [if_pos hips]

/-- Witness for C8 at the spec's scenario 2: one row with a non-target ASN
matches nothing; the run yields `[]` and `main` exits 1 without writing. -/
theorem empty_result_policy_witness :
    get_ips_from_ipinfo_csv [["1.0.0.0", "1.0.0.0", "CN", "AS9999"]]
      COUNTRY_CODE AS_NUMBERS = [] ∧
    mainResult [["1.0.0.0", "1.0.0.0", "CN", "AS9999"]] ∅ = (1, none) :=
  empty_result_policy [["1.0.0.0", "1.0.0.0", "CN", "AS9999"]] ∅ (by decide)

/-- C9 counterexample: with no data rows the newly computed CIDR set is
empty and set-equal to an empty persisted snapshot, yet `main` exits 1
(the empty-result abort fires before the no-change comparison), not 0. -/
theorem no_change_exit_counterexample :
    (get_ips_from_ipinfo_csv [] COUNTRY_CODE AS_NUMBERS).toFinset
        = (∅ : Finset String) ∧
    mainResult [] (∅ : Finset String) = (1, none) ∧
    mainResult [] (∅ : Finset String) ≠ (0, none) := by
  refine ⟨by decide, by decide, by decide⟩

/-- C9 (amended): provided the newly computed CIDR list is non-empty, the
program exits 0 and leaves the file untouched when the computed set equals
the persisted set, and exits 0 after writing the newline-joined list with
a trailing newline when they differ (assuming the write succeeds); when
the computed list is empty, the program instead exits 1 without writing,
even if the persisted set is also empty. -/
theorem snapshot_change_detection (rows : List (List String))
    (existing : Finset String)
    (hne : get_ips_from_ipinfo_csv rows COUNTRY_CODE AS_NUMBERS ≠ []) :
    ((get_ips_from_ipinfo_csv rows COUNTRY_CODE AS_NUMBERS).toFinset = existing →
      mainResult rows existing = (0, none)) ∧
    ((get_ips_from_ipinfo_csv rows COUNTRY_CODE AS_NUMBERS).toFinset ≠ existing →
      mainResult rows existing = (0, some (String.intercalate "\n"
        (get_ips_from_ipinfo_csv rows COUNTRY_CODE AS_NUMBERS) ++ "\n"))) := by
  constructor <;> intro h <;>
    · show (if get_ips_from_ipinfo_csv rows COUNTRY_CODE AS_NUMBERS = []
          then ((1 : Nat), (none : Option String))
          else if (get_ips_from_ipinfo_csv rows COUNTRY_CODE AS_NUMBERS).toFinset
              = existing then (0, none)
          else (0, some (String.intercalate "\n"
            (get_ips_from_ipinfo_csv rows COUNTRY_CODE AS_NUMBERS) ++ "\n"))) = _
      rw [if_neg hne]
      first
      | rw [if_pos h]
      | rw [if_neg h]

/-- Concrete evaluation of the aggregation on the spec's scenario 1 row. -/
theorem get_ips_scenario1 :
    get_ips_from_ipinfo_csv [["1.0.0.0", "1.0.0.255", "CN", "AS4134"]]
      COUNTRY_CODE AS_NUMBERS = ["1.0.0.0/24"] := by
  have hagg : (aggregate [["1.0.0.0", "1.0.0.255", "CN", "AS4134"]]
      COUNTRY_CODE AS_NUMBERS).cidrs = {"1.0.0.0/24"} := by decide
  show (if (aggregate [["1.0.0.0", "1.0.0.255", "CN", "AS4134"]]
        COUNTRY_CODE AS_NUMBERS).cidrs = ∅ then []
    else sortedCidrList (aggregate [["1.0.0.0", "1.0.0.255", "CN", "AS4134"]]
      COUNTRY_CODE AS_NUMBERS).cidrs) = ["1.0.0.0/24"]
  rw [hagg, if_neg (by decide)]
  exact Finset.sort_singleton cidrLE "1.0.0.0/24"

/-- Witness for C9: with the snapshot already containing `1.0.0.0/24` the
run is a no-op with exit 0; with an empty snapshot the file is rewritten
and the exit code is still 0. -/
theorem snapshot_change_detection_witness :
    mainResult [["1.0.0.0", "1.0.0.255", "CN", "AS4134"]] {"1.0.0.0/24"}
        = (0, none) ∧
    mainResult [["1.0.0.0", "1.0.0.255", "CN", "AS4134"]] ∅
        = (0, some (String.intercalate "\n"
            (get_ips_from_ipinfo_csv [["1.0.0.0", "1.0.0.255", "CN", "AS4134"]]
              COUNTRY_CODE AS_NUMBERS) ++ "\n")) := by
  have hne : get_ips_from_ipinfo_csv [["1.0.0.0", "1.0.0.255", "CN", "AS4134"]]
      COUNTRY_CODE AS_NUMBERS ≠ [] := by
    rw [get_ips_scenario1]
    decide
  constructor
  · exact (snapshot_change_detection _ _ hne).1 (by rw [get_ips_scenario1]; decide)
  · exact (snapshot_change_detection _ _ hne).2 (by rw [get_ips_scenario1]; decide)

set_option maxRecDepth 4000 in
/-- Decimal rendering of an octet value: all digits, and `parse_octet`
recovers the value. -/
theorem decChars_octet :
    ∀ v < 256, (decChars v).all isDecDigit = true ∧
      parse_octet (decChars v) = some v := by decide

set_option maxRecDepth 4000 in
/-- Decimal rendering of a prefix length is recovered by
`parse_prefixlen`. -/
theorem decChars_prefixlen : ∀ p < 33, parse_prefixlen (decChars p) = some p := by
  decide

theorem isDecDigit_ne_sep (c : Char) (h : isDecDigit c = true) :
    c ≠ '.' ∧ c ≠ '/' := by
  constructor <;> rintro rfl <;> exact absurd h (by decide)

theorem splitSep_no_sep (sep : Char) :
    ∀ l : List Char, (∀ c ∈ l, c ≠ sep) → splitSep sep l = [l] := by
  intro l
  induction l with
  | nil => intro _; rfl
  | cons c cs ih =>
    intro h
    unfold splitSep
    rw [if_neg (h c (List.mem_cons_self _ _))]
    rw [ih (fun c' hc' => h c' (List.mem_cons_of_mem _ hc'))]

theorem splitSep_append (sep : Char) :
    ∀ (l r : List Char), (∀ c ∈ l, c ≠ sep) →
      splitSep sep (l ++ sep :: r) = l :: splitSep sep r := by
  intro l
  induction l with
  | nil =>
    intro r _
    simp [splitSep]
  | cons c cs ih =>
    intro r h
    simp only [List.cons_append, splitSep, List.append_eq]
    rw [if_neg (h c (List.mem_cons_self _ _))]
    rw [ih r (fun c' hc' => h c' (List.mem_cons_of_mem _ hc'))]

theorem decChars_no_dot (v : Nat) (hv : v < 256) :
    ∀ c ∈ decChars v, c ≠ '.' := by
  intro c hc
  have hall := (decChars_octet v hv).1
  rw [List.all_eq_true] at hall
  exact (isDecDigit_ne_sep c (hall c hc)).1

theorem decChars_no_slash (v : Nat) (hv : v < 256) :
    ∀ c ∈ decChars v, c ≠ '/' := by
  intro c hc
  have hall := (decChars_octet v hv).1
  rw [List.all_eq_true] at hall
  exact (isDecDigit_ne_sep c (hall c hc)).2

/-- Printing a 32-bit address and re-parsing it recovers the integer. -/
theorem ipv4_roundtrip (n : Nat) (hn : n < 2 ^ 32) :
    ipv4_int_from_chars (ipv4Chars n) = some n := by
  have h1 : n / 2 ^ 24 % 256 < 256 := Nat.mod_lt _ (by norm_num)
  have h2 : n / 2 ^ 16 % 256 < 256 := Nat.mod_lt _ (by norm_num)
  have h3 : n / 2 ^ 8 % 256 < 256 := Nat.mod_lt _ (by norm_num)
  have h4 : n % 256 < 256 := Nat.mod_lt _ (by norm_num)
  unfold ipv4_int_from_chars ipv4Chars
  rw [splitSep_append '.' _ _ (decChars_no_dot _ h1),
    splitSep_append '.' _ _ (decChars_no_dot _ h2),
    splitSep_append '.' _ _ (decChars_no_dot _ h3),
    splitSep_no_sep '.' _ (decChars_no_dot _ h4)]
  rw [List.mapM_cons, List.mapM_cons, List.mapM_cons, List.mapM_cons,
    List.mapM_nil]
  rw [(decChars_octet _ h1).2, (decChars_octet _ h2).2,
    (decChars_octet _ h3).2, (decChars_octet _ h4).2]
  simp only [Option.pure_def, Option.bind_eq_bind, Option.some_bind,
    Option.some.injEq]
  have e24 : (2 : Nat) ^ 24 = 16777216 := by norm_num
  have e16 : (2 : Nat) ^ 16 = 65536 := by norm_num
  have e8 : (2 : Nat) ^ 8 = 256 := by norm_num
  have e32 : (2 : Nat) ^ 32 = 4294967296 := by norm_num
  rw [e24, e16, e8]
  rw [e32] at hn
  omega

theorem ipv4Chars_no_slash (n : Nat) : ∀ c ∈ ipv4Chars n, c ≠ '/' := by
  intro c hc
  have h1 : n / 2 ^ 24 % 256 < 256 := Nat.mod_lt _ (by norm_num)
  have h2 : n / 2 ^ 16 % 256 < 256 := Nat.mod_lt _ (by norm_num)
  have h3 : n / 2 ^ 8 % 256 < 256 := Nat.mod_lt _ (by norm_num)
  have h4 : n % 256 < 256 := Nat.mod_lt _ (by norm_num)
  unfold ipv4Chars at hc
  simp only [List.mem_append, List.mem_cons] at hc
  rcases hc with hc | hc | hc | hc | hc | hc | hc
  · exact decChars_no_slash _ h1 c hc
  · subst hc; decide
  · exact decChars_no_slash _ h2 c hc
  · subst hc; decide
  · exact decChars_no_slash _ h3 c hc
  · subst hc; decide
  · exact decChars_no_slash _ h4 c hc

/-- Printing a valid CIDR block and re-parsing it with the `ip_network`
model recovers the `(network_int, prefixlen)` pair. -/
theorem parse_ipv4_network_roundtrip (n p : Nat) (hn : n < 2 ^ 32)
    (hp : p ≤ 32) (hdvd : 2 ^ (32 - p) ∣ n) :
    parse_ipv4_network (cidrString (n, p)) = some (n, p) := by
  have hz : n % 2 ^ (32 - p) = 0 := by
    obtain ⟨c, rfl⟩ := hdvd
    exact Nat.mul_mod_right _ _
  unfold parse_ipv4_network cidrString
  dsimp only
  rw [splitSep_append '/' _ _ (ipv4Chars_no_slash n),
    splitSep_no_sep '/' _ (decChars_no_slash p (by omega))]
  dsimp only
  rw [ipv4_roundtrip n hn, decChars_prefixlen p (by omega)]
  dsimp only
  rw [if_pos hz]

theorem ip_range_to_cidrE_err_malformed (ss es : String)
    (h : ip_address ss = none ∨ ip_address es = none) :
    ip_range_to_cidrE ss es = .error .malformed := by
  unfold ip_range_to_cidrE
  rcases h with h | h
  · rw [h]
  · rw [h]
    cases hss : ip_address ss with
    | none => rfl
    | some A => cases A <;> rfl

/-- Every string produced by `ip_range_to_cidr` is the canonical rendering
of a valid aligned block below `2 ^ 32`. -/
theorem ip_range_to_cidr_mem (ss es x : String)
    (h : x ∈ ip_range_to_cidr ss es) :
    ∃ n p, n < 2 ^ 32 ∧ p ≤ 32 ∧ 2 ^ (32 - p) ∣ n ∧ x = cidrString (n, p) := by
  cases hss : ip_address ss with
  | none =>
    rw [ip_range_to_cidr_of_err ss es .malformed
      (ip_range_to_cidrE_err_malformed ss es (Or.inl hss))] at h
    simp at h
  | some A =>
    cases hes : ip_address es with
    | none =>
      rw [ip_range_to_cidr_of_err ss es .malformed
        (ip_range_to_cidrE_err_malformed ss es (Or.inr hes))] at h
      simp at h
    | some B =>
      cases A with
      | v6 =>
        have herr : ip_range_to_cidrE ss es = .error .unsupportedFamily := by
          unfold ip_range_to_cidrE
          rw [hss, hes]
        rw [ip_range_to_cidr_of_err ss es _ herr] at h
        simp at h
      | v4 a =>
        cases B with
        | v6 =>
          have herr : ip_range_to_cidrE ss es = .error .unsupportedFamily := by
            unfold ip_range_to_cidrE
            rw [hss, hes]
          rw [ip_range_to_cidr_of_err ss es _ herr] at h
          simp at h
        | v4 b =>
          by_cases hab : a ≤ b
          · rw [(ip_range_to_cidr_ok ss es a b hss hes hab).2] at h
            rw [List.mem_map] at h
            obtain ⟨blk, hblk, rfl⟩ := h
            have hblt : b < 2 ^ 32 := ip_address_v4_lt es b hes
            have hchain := summarize_chainCovers a b hab hblt
            have hal := chainCovers_aligned _ a b hchain blk hblk
            have hbnd := chainCovers_bounds _ a b hchain blk hblk
            have hpos := two_pow_pos (32 - blk.2)
            exact ⟨blk.1, blk.2, by omega, hal.1, hal.2, rfl⟩
          · have herr : ip_range_to_cidrE ss es = .error .rangeOrder := by
              unfold ip_range_to_cidrE
              rw [hss, hes]
              show (if a > b then (Except.error ConvError.rangeOrder :
                  Except ConvError (List String))
                else Except.ok ((summarize_address_range a b).map cidrString))
                = Except.error ConvError.rangeOrder
              rw [if_pos (show a > b by omega)]
            rw [ip_range_to_cidr_of_err ss es _ herr] at h
            simp at h

theorem aggregate_cidrs_canonical (tc : String) (tasns : List String) :
    ∀ (rows : List (List String)) (st : AggState),
      (∀ x ∈ st.cidrs,
        ∃ n p, n < 2 ^ 32 ∧ p ≤ 32 ∧ 2 ^ (32 - p) ∣ n ∧ x = cidrString (n, p)) →
      ∀ x ∈ (rows.foldl (processRow tc tasns) st).cidrs,
        ∃ n p, n < 2 ^ 32 ∧ p ≤ 32 ∧ 2 ^ (32 - p) ∣ n ∧ x = cidrString (n, p) := by
  intro rows
  induction rows with
  | nil => intro st h; exact h
  | cons row rows ih =>
    intro st h
    simp only [List.foldl_cons]
    apply ih
    intro x hx
    rw [processRow_eq] at hx
    dsimp only at hx
    rw [Finset.mem_union] at hx
    rcases hx with hx | hx
    · exact h x hx
    · unfold rowCidrs at hx
      split_ifs at hx with hm
      · rw [List.mem_toFinset] at hx
        exact ip_range_to_cidr_mem _ _ _ hx
      · simp at hx

/-- C3: the returned list is strictly ascending: adjacent entries have
strictly increasing 32-bit network addresses, or equal network addresses
with strictly increasing prefix lengths (the less-specific block first);
and every entry parses as an IPv4 network, so building the sort key never
fails. -/
theorem output_sorted_strict (rows : List (List String)) (tc : String)
    (tasns : List String) :
    List.Chain' netKeyLt (get_ips_from_ipinfo_csv rows tc tasns) ∧
    (∀ x ∈ get_ips_from_ipinfo_csv rows tc tasns,
      ∃ n p, parse_ipv4_network x = some (n, p) ∧ netKey x = (n, p)) := by
  have hcanon := aggregate_cidrs_canonical tc tasns rows ⟨∅, 0, 0⟩
    (by intro x hx; simp at hx)
  by_cases hc : (aggregate rows tc tasns).cidrs = ∅
  · have hout : get_ips_from_ipinfo_csv rows tc tasns = [] := by
      show (if (aggregate rows tc tasns).cidrs = ∅ then []
        else sortedCidrList (aggregate rows tc tasns).cidrs) = []
      rw [if_pos hc]
    rw [hout]
    exact ⟨List.chain'_nil, by simp⟩
  · have hout : get_ips_from_ipinfo_csv rows tc tasns =
        sortedCidrList (aggregate rows tc tasns).cidrs := by
      show (if (aggregate rows tc tasns).cidrs = ∅ then []
        else sortedCidrList (aggregate rows tc tasns).cidrs) = _
      rw [if_neg hc]
    rw [hout]
    have hmem : ∀ x ∈ sortedCidrList (aggregate rows tc tasns).cidrs,
        ∃ n p, n < 2 ^ 32 ∧ p ≤ 32 ∧ 2 ^ (32 - p) ∣ n ∧ x = cidrString (n, p) := by
      intro x hx
      rw [sortedCidrList, Finset.mem_sort] at hx
      exact hcanon x hx
    have hkeyOf : ∀ x ∈ sortedCidrList (aggregate rows tc tasns).cidrs,
        ∃ n p, parse_ipv4_network x = some (n, p) ∧ netKey x = (n, p) := by
      intro x hx
      obtain ⟨n, p, hn, hp, hd, rfl⟩ := hmem x hx
      have hr := parse_ipv4_network_roundtrip n p hn hp hd
      exact ⟨n, p, hr, by unfold netKey; rw [hr]⟩
    refine ⟨?_, hkeyOf⟩
    have hsorted : List.Sorted cidrLE (sortedCidrList (aggregate rows tc tasns).cidrs) :=
      Finset.sort_sorted _ _
    have hnodup : (sortedCidrList (aggregate rows tc tasns).cidrs).Nodup :=
      Finset.sort_nodup _ _
    have hpair := hsorted.and hnodup
    refine (hpair.imp_of_mem ?_).chain'
    intro a b ha hb hab
    obtain ⟨hle, hne⟩ := hab
    obtain ⟨n1, p1, hk1, hnk1⟩ := hkeyOf a ha
    obtain ⟨n2, p2, hk2, hnk2⟩ := hkeyOf b hb
    obtain ⟨m1, q1, hm1, hq1, hd1, he1⟩ := hmem a ha
    obtain ⟨m2, q2, hm2, hq2, hd2, he2⟩ := hmem b hb
    rcases hle with hlt | ⟨hkeq, _⟩
    · exact hlt
    · exfalso
      apply hne
      have hr1 := parse_ipv4_network_roundtrip m1 q1 hm1 hq1 hd1
      have hr2 := parse_ipv4_network_roundtrip m2 q2 hm2 hq2 hd2
      have hka : netKey a = (m1, q1) := by rw [he1]; unfold netKey; rw [hr1]
      have hkb : netKey b = (m2, q2) := by rw [he2]; unfold netKey; rw [hr2]
      rw [hka, hkb] at hkeq
      have hm : m1 = m2 := congrArg Prod.fst hkeq
      have hq : q1 = q2 := congrArg Prod.snd hkeq
      rw [he1, he2, hm, hq]

/-- Witness for C3: the output for a concrete matching row is a strictly
key-ascending chain. -/
theorem output_sorted_strict_witness :
    List.Chain' netKeyLt (get_ips_from_ipinfo_csv
      [["1.0.0.0", "1.0.0.255", "CN", "AS4134"]] COUNTRY_CODE AS_NUMBERS) :=
  (output_sorted_strict [["1.0.0.0", "1.0.0.255", "CN", "AS4134"]]
    COUNTRY_CODE AS_NUMBERS).1
